import Mathlib

/-
Shallow embedding of art's `tools/check_cfi.py`, a checker that compares
DWARF CFA (call-frame) offsets declared in an ELF library against offsets
inferred from the disassembled instruction stream.

The embedding models:
  * instruction-semantics rules (`get_inst_semantics`, here for the x86
    family) as functions from the instruction text to an optional
    `RuleAction` (stack-offset delta plus optional branch-target PC);
  * `get_inferred_cfa_offsets` as a state-passing loop (`infer_step` /
    `infer_run`) over the instruction list, producing either an `Error`
    (the script's dataclass exception) or the PC -> offset map;
  * `get_dwarf_cfa_offsets` over the already-decoded CFA rule list
    (the regex decode of `(0x..): CFA=reg+off` lines is represented by
    `List (Nat × Option Int)`: address paired with `some off` for a
    trivial SP+offset rule and `none` otherwise);
  * `check_fde`, the comparator that raises at the first genuine mismatch;
  * `check_lib`'s FDE loop (`collect_asms` / `process_fde`), the `seen`
    coverage set and the final fail count;
  * `main`'s per-library loop (`main_status` / `main_libs_checked`).

Maps (Python dicts) are modelled as functions `Nat → Option _`: `none`
means the key is absent.  The DWARF map stores `Option Int` values (the
script stores `None` for non-trivial rules), hence `Nat → Option (Option Int)`.
-/

/-- One disassembled instruction: its PC and its (whitespace-normalised) text. -/
structure Inst where
  pc : Nat
  inst : String
  deriving DecidableEq

/-- The architectures the script knows about (`ARCHES`). -/
inductive Arch where
  | i386
  | x86_64
  | arm
  | aarch64
  | riscv64
  deriving DecidableEq, BEq

/-- List form of `ARCHES`. -/
def ARCHES : List Arch := [.i386, .x86_64, .arm, .aarch64, .riscv64]

/-- `INITIAL_OFFSET.get(arch, 0)`: the CFA offset at function entry. -/
def INITIAL_OFFSET : Arch → Int
  | .i386 => 4
  | .x86_64 => 8
  | _ => 0

/-- The `IGNORE` table: symbol-name prefixes that are skipped per architecture. -/
def IGNORE : List (String × List Arch) :=
  [("art_quick_osr_stub", [.i386]),
   ("art_quick_do_long_jump", [.x86_64]),
   ("art_quick_generic_jni_trampoline", [.arm, .i386, .x86_64]),
   ("art_quick_throw_null_pointer_exception_from_signal", ARCHES),
   ("nterp_op_return", [.arm, .aarch64, .i386, .x86_64, .riscv64])]

/-- Character-list translation of Python's `str.startswith`. -/
def str_starts : List Char → List Char → Bool
  | [], _ => true
  | _ :: _, [] => false
  | p :: ps, c :: cs => p == c && str_starts ps cs

/-- Translation of `any(asm.name.startswith(n) and arch in a for n, a in IGNORE.items())`. -/
def is_ignored (arch : Arch) (name : String) : Bool :=
  IGNORE.any (fun e => str_starts e.1.toList name.toList && e.2.contains arch)

/-- The `Error` dataclass exception of the script. -/
structure Error where
  address : Nat
  message : String
  deriving DecidableEq

/-- Result of matching one instruction-semantics regex: the stack offset
delta (`adjust_offset` applied to the match) and, when the rule has an
`adjust_pc` lambda, the decoded branch-target PC. -/
structure RuleAction where
  delta : Int
  target : Option Nat
  deriving DecidableEq

/-- One entry of the `get_inst_semantics` list, as a matching function. -/
def Rule : Type := String → Option RuleAction

/-- First matched pattern wins (the inner `for`/`break` of the script). -/
def firstMatch : List Rule → String → Option RuleAction
  | [], _ => none
  | r :: rs, s =>
    match r s with
    | some act => some act
    | none => firstMatch rs s

/-- Pointwise map update, modelling `result[k] = v` on a Python dict. -/
def mset {α : Type} (m : Nat → Option α) (k : Nat) (v : α) : Nat → Option α :=
  fun x => if x = k then some v else m x

/-- Message of the inconsistent-branch error raised by `get_inferred_cfa_offsets`. -/
def inconsistent_message (old new : Int) : String :=
  "Inconsistent branch (old=" ++ toString old ++ " new=" ++ toString new ++ ")"

/-- Message of the mismatch error raised by `check_fde`. -/
def mismatch_message : String :=
  "DWARF offset does not match inferred offset"

/-- Message of the no-trivial-CFA error raised by `get_dwarf_cfa_offsets`. -/
def no_trivial_message : String :=
  "No trivial CFA offsets. Add function to IGNORE list?"

/-- Body of one iteration of the `for pc, inst in insts` loop of
`get_inferred_cfa_offsets`: the `setdefault`, the first-match search and
the offset/branch-target bookkeeping (lines 213-231 of the script). -/
def infer_step (lo hi : Nat) (rules : List Rule) (i : Inst) (offset : Int)
    (result : Nat → Option Int) : Except Error (Int × (Nat → Option Int)) :=
  let offset1 := (result i.pc).getD offset
  let result1 := mset result i.pc offset1
  match firstMatch rules i.inst with
  | none => .ok (offset1, result1)
  | some act =>
    match act.target with
    | none => .ok (offset1 + act.delta, result1)
    | some t =>
      if lo ≤ t ∧ t ≤ hi then
        match result1 t with
        | some old =>
          if old = offset1 + act.delta then
            .ok (offset1, mset result1 t (offset1 + act.delta))
          else
            .error ⟨i.pc, inconsistent_message old (offset1 + act.delta)⟩
        | none => .ok (offset1, mset result1 t (offset1 + act.delta))
      else .ok (offset1, result1)

/-- The whole instruction loop of `get_inferred_cfa_offsets`, returning the
final running offset and the PC -> offset map (or the raised `Error`). -/
def infer_run (lo hi : Nat) (rules : List Rule) :
    List Inst → Int → (Nat → Option Int) → Except Error (Int × (Nat → Option Int))
  | [], offset, result => .ok (offset, result)
  | i :: rest, offset, result =>
    match infer_step lo hi rules i offset result with
    | .ok s => infer_run lo hi rules rest s.1 s.2
    | .error e => .error e

/-- `get_inferred_cfa_offsets(insts)`: the branch-range bounds are the
first and last instruction PCs (only consulted when `insts` is nonempty,
exactly as in the script). -/
def get_inferred_cfa_offsets (rules : List Rule) (ini : Int) (insts : List Inst) :
    Except Error (Nat → Option Int) :=
  (infer_run (((insts.head?).map Inst.pc).getD 0) (((insts.getLast?).map Inst.pc).getD 0)
    rules insts ini (fun _ => none)).map Prod.snd

/-- Inferred-offset map evaluated at one PC (for stating concrete facts). -/
def get_inferred_at (rules : List Rule) (ini : Int) (insts : List Inst) (pc : Nat) :
    Except Error (Option Int) :=
  (get_inferred_cfa_offsets rules ini insts).map (fun m => m pc)

/-- The `while cfa and cfa[0][0] <= pc: offset = cfa.popleft()[1]` loop of
`get_dwarf_cfa_offsets`. -/
def consume_cfa : List (Nat × Option Int) → Nat → Option Int →
    List (Nat × Option Int) × Option Int
  | [], _, offset => ([], offset)
  | (a, o) :: rest, pc, offset =>
    if a ≤ pc then consume_cfa rest pc o else ((a, o) :: rest, offset)

/-- The instruction loop of `get_dwarf_cfa_offsets`: every instruction PC
is written into the result map unconditionally. -/
def dwarf_run : List Inst → List (Nat × Option Int) → Option Int →
    (Nat → Option (Option Int)) → Nat → Option (Option Int)
  | [], _, _, result => result
  | i :: rest, cfa, offset, result =>
    let s := consume_cfa cfa i.pc offset
    dwarf_run rest s.1 s.2 (mset result i.pc s.2)

/-- `get_dwarf_cfa_offsets(insts, fde)` over the decoded CFA rule list.
When every decoded rule is `None` (also when no rule decoded at all) the
script raises `Error(insts[0].pc, ...)`; for empty `insts` the script
would fail on `insts[0]`, which the comparison paths never reach. -/
def get_dwarf_cfa_offsets (ini : Int) (insts : List Inst) (cfa : List (Nat × Option Int)) :
    Except Error (Nat → Option (Option Int)) :=
  if cfa.all (fun r => r.2.isNone) then
    .error ⟨(((insts.head?).map Inst.pc).getD 0), no_trivial_message⟩
  else
    .ok (dwarf_run insts cfa (some ini) (fun _ => none))

/-- Genuine-mismatch test of `check_fde` at one PC: a concrete declared
offset that differs from the inferred one, at a source-attributed PC. -/
def is_mismatch (d : Nat → Option (Option Int)) (m : Nat → Option Int)
    (srcs : Finset Nat) (pc : Nat) : Bool :=
  ((d pc).getD none).isSome && ((d pc).getD none != m pc) && decide (pc ∈ srcs)

/-- `check_fde(fde, insts, srcs)`: build both maps, then raise a single
mismatch error at the first genuine mismatch in program order. -/
def check_fde (rules : List Rule) (ini : Int) (srcs : Finset Nat) (insts : List Inst)
    (cfa : List (Nat × Option Int)) : Except Error Unit :=
  match get_dwarf_cfa_offsets ini insts cfa with
  | .error e => .error e
  | .ok d =>
    match get_inferred_cfa_offsets rules ini insts with
    | .error e => .error e
    | .ok m =>
      match insts.find? (fun i => is_mismatch d m srcs i.pc) with
      | some i => .error ⟨i.pc, mismatch_message⟩
      | none => .ok ()

/-
Concrete instruction semantics for the x86 family (`get_inst_semantics`
for `i386`/`x86_64`), translated regex by regex from lines 56-63 of the
script.  `fullmatch` semantics: the whole instruction text must match.
`.` never matches a newline.  Where Python's `int(..., 0)` would raise
`ValueError` (a `\w+` capture that is not a valid number) the matcher
yields `none`; that corner is unreachable for well-formed disassembly.
-/

/-- A regex `\w` character: alphanumeric or underscore. -/
def is_word_char (c : Char) : Bool := c.isAlphanum || c == '_'

/-- A regex `[a-z]` character. -/
def is_lower_az (c : Char) : Bool := 'a' ≤ c && c ≤ 'z'

/-- True when no character is a newline (for `.*` / `.`). -/
def no_newline (cs : List Char) : Bool := cs.all (fun c => c != '\n')

/-- Value of one hexadecimal digit. -/
def hex_digit_val (c : Char) : Option Nat :=
  if '0' ≤ c ∧ c ≤ '9' then some (c.toNat - '0'.toNat)
  else if 'a' ≤ c ∧ c ≤ 'f' then some (c.toNat - 'a'.toNat + 10)
  else if 'A' ≤ c ∧ c ≤ 'F' then some (c.toNat - 'A'.toNat + 10)
  else none

/-- Parse a nonempty run of hex digits (the digits after `0x`). -/
def parse_hex_digits (cs : List Char) : Option Nat :=
  if cs.isEmpty then none
  else cs.foldl (fun acc c => acc.bind (fun n => (hex_digit_val c).map (fun d => 16 * n + d)))
    (some 0)

/-- Value of one decimal digit. -/
def dec_digit_val (c : Char) : Option Nat :=
  if '0' ≤ c ∧ c ≤ '9' then some (c.toNat - '0'.toNat) else none

/-- Parse a nonempty run of decimal digits. -/
def parse_dec_digits (cs : List Char) : Option Nat :=
  if cs.isEmpty then none
  else cs.foldl (fun acc c => acc.bind (fun n => (dec_digit_val c).map (fun d => 10 * n + d)))
    (some 0)

/-- Python `int(s, 0)` for the nonnegative `\w+` captures of the script:
a `0x` prefix selects hexadecimal, otherwise decimal. -/
def parse_py_int (cs : List Char) : Option Nat :=
  match cs with
  | '0' :: 'x' :: ds => parse_hex_digits ds
  | _ => parse_dec_digits cs

/-- Suffix `(\w+), (?:%esp|%rsp)` of the `sub.`/`add.` rules, after `\$`. -/
def sp_operand (rest : List Char) : Option Nat :=
  let s := rest.span is_word_char
  if s.1 ≠ [] ∧ (s.2 = (", %esp").toList ∨ s.2 = (", %rsp").toList) then
    parse_py_int s.1
  else none

/-- Suffix `(\w+) <.*` of the `call.`/`j[a-z]*` rules, after the captured `0x`. -/
def target_operand (rest : List Char) : Option Nat :=
  let s := rest.span is_word_char
  match s.2 with
  | ' ' :: '<' :: tail =>
    if s.1 ≠ [] ∧ no_newline tail then parse_hex_digits s.1 else none
  | _ => none

/-- Rule `push. .*` with `adjust_offset = ptr_size`. -/
def match_push (ptrSize : Int) : List Char → Option RuleAction
  | 'p' :: 'u' :: 's' :: 'h' :: c :: ' ' :: rest =>
    if c != '\n' && no_newline rest then some ⟨ptrSize, none⟩ else none
  | _ => none

/-- Rule `pop. .*` with `adjust_offset = -ptr_size`. -/
def match_pop (ptrSize : Int) : List Char → Option RuleAction
  | 'p' :: 'o' :: 'p' :: c :: ' ' :: rest =>
    if c != '\n' && no_newline rest then some ⟨-ptrSize, none⟩ else none
  | _ => none

/-- Rule `sub. \$(\w+), (?:%esp|%rsp)` with `adjust_offset = int(m[1], 0)`. -/
def match_sub : List Char → Option RuleAction
  | 's' :: 'u' :: 'b' :: c :: ' ' :: '$' :: rest =>
    if c != '\n' then (sp_operand rest).map (fun n => ⟨(n : Int), none⟩) else none
  | _ => none

/-- Rule `add. \$(\w+), (?:%esp|%rsp)` with `adjust_offset = -int(m[1], 0)`. -/
def match_add : List Char → Option RuleAction
  | 'a' :: 'd' :: 'd' :: c :: ' ' :: '$' :: rest =>
    if c != '\n' then (sp_operand rest).map (fun n => ⟨-(n : Int), none⟩) else none
  | _ => none

/-- Rule `call. (0x\w+) <.*` with `adjust_offset = ptr_size` and
`adjust_pc = int(m[1], 0)`. -/
def match_call (ptrSize : Int) : List Char → Option RuleAction
  | 'c' :: 'a' :: 'l' :: 'l' :: c :: ' ' :: '0' :: 'x' :: rest =>
    if c != '\n' then (target_operand rest).map (fun t => ⟨ptrSize, some t⟩) else none
  | _ => none

/-- Rule `j[a-z]* (0x\w+) <.*` with `adjust_pc = int(m[1], 0)` (delta 0). -/
def match_jump : List Char → Option RuleAction
  | 'j' :: rest =>
    match (rest.span is_lower_az).2 with
    | ' ' :: '0' :: 'x' :: rest2 => (target_operand rest2).map (fun t => ⟨0, some t⟩)
    | _ => none
  | _ => none

/-- The ordered x86-family rule list (`ptr_size` is 4 for i386, 8 for x86_64). -/
def x86_semantics (ptrSize : Int) : List Rule :=
  [fun s => match_push ptrSize s.toList,
   fun s => match_pop ptrSize s.toList,
   fun s => match_sub s.toList,
   fun s => match_add s.toList,
   fun s => match_call ptrSize s.toList,
   fun s => match_jump s.toList]

/-- Offset delta contributed by one instruction when no branch target is
in play: the delta of its first matching rule, `0` when nothing matches. -/
def matched_delta (rules : List Rule) (i : Inst) : Int :=
  match firstMatch rules i.inst with
  | some act => act.delta
  | none => 0

/-- Sum of the matched deltas of a straight-line instruction sequence. -/
def line_deltas (rules : List Rule) (insts : List Inst) : Int :=
  (insts.map (matched_delta rules)).sum

/-- True when the instruction's first matching rule (if any) names no
branch target. -/
def no_branch (rules : List Rule) (i : Inst) : Bool :=
  match firstMatch rules i.inst with
  | some act => act.target.isNone
  | none => true

/-
The `check_lib` FDE loop (lines 262-292) and `main` (lines 295-309).
An `Fde` carries its decoded CFA rule list; an `Asm` block carries the
instruction list that `get_instructions` would extract from its text.
-/

/-- One FDE block: start PC, end PC, decoded CFA rules. -/
structure Fde where
  pc : Nat
  fend : Nat
  cfa : List (Nat × Option Int)
  deriving DecidableEq

/-- One disassembled symbol block. -/
structure Asm where
  pc : Nat
  name : String
  insts : List Inst
  deriving DecidableEq

/-- The set of instruction PCs of a block (for the `seen` coverage set). -/
def pcs_of (insts : List Inst) : Finset Nat := (insts.map Inst.pc).toFinset

/-- The `while asms and asms[0].pc < fde.end` loop of `check_lib`:
pops blocks from the deque, drops those before the FDE start, records
ignored blocks' PCs as seen, and accumulates the rest for comparison.
Returns the remaining deque, the seen set, the accumulated instructions
and the (first nonempty) symbol name. -/
def collect_asms (arch : Arch) (fpc fend : Nat) :
    List Asm → Finset Nat → List Inst → String →
    List Asm × Finset Nat × List Inst × String
  | [], seen, acc, name => ([], seen, acc, name)
  | a :: rest, seen, acc, name =>
    if a.pc < fend then
      if a.pc < fpc then collect_asms arch fpc fend rest seen acc name
      else if is_ignored arch a.name then
        collect_asms arch fpc fend rest (seen ∪ pcs_of a.insts) acc name
      else
        collect_asms arch fpc fend rest seen (acc ++ a.insts)
          (if name = "" then a.name else name)
    else (a :: rest, seen, acc, name)

/-- State threaded through `check_lib`'s FDE loop: the remaining asm
deque, the `seen` set, and the list of errors printed so far (one per
FDE whose `check_fde` raised). -/
structure LibState where
  asms : List Asm
  seen : Finset Nat
  errs : List Error
  deriving DecidableEq

/-- Body of `for fde in fdes` in `check_lib`: skip FDEs not starting at a
source PC, gather the instruction chunks, run `check_fde`, and update
`seen` whether or not an error was raised. -/
def process_fde (arch : Arch) (rules : List Rule) (srcs : Finset Nat)
    (st : LibState) (fde : Fde) : LibState :=
  if fde.pc ∈ srcs then
    match collect_asms arch fde.pc fde.fend st.asms st.seen [] "" with
    | (asms2, seen2, insts2, _) =>
      if insts2 = [] then ⟨asms2, seen2, st.errs⟩
      else
        match check_fde rules (INITIAL_OFFSET arch) srcs insts2 fde.cfa with
        | .ok _ => ⟨asms2, seen2 ∪ pcs_of insts2, st.errs⟩
        | .error e => ⟨asms2, seen2 ∪ pcs_of insts2, st.errs ++ [e]⟩
  else st

/-- The state after `check_lib`'s FDE loop has run over all FDEs. -/
def check_lib_state (arch : Arch) (rules : List Rule) (fdes : List Fde)
    (asms : List Asm) (srcs : Finset Nat) : LibState :=
  fdes.foldl (process_fde arch rules srcs) ⟨asms, ∅, []⟩

/-- `check_lib`'s return value: FDE errors plus one coverage error for
every source PC never seen. -/
def check_lib (arch : Arch) (rules : List Rule) (fdes : List Fde)
    (asms : List Asm) (srcs : Finset Nat) : Nat :=
  (check_lib_state arch rules fdes asms srcs).errs.length +
    (srcs \ (check_lib_state arch rules fdes asms srcs).seen).card

/-- Exit status of `main`'s library loop, given each library's fail
count in order: `sys.exit(1)` fires at the first positive count. -/
def main_status : List Nat → Nat
  | [] => 0
  | f :: rest => if 0 < f then 1 else main_status rest

/-- Number of libraries `main` actually checks before terminating. -/
def main_libs_checked : List Nat → Nat
  | [] => 0
  | f :: rest => if 0 < f then 1 else 1 + main_libs_checked rest

/- Example instruction sequences used by concrete counterexamples and
witnesses below. -/

/-- Push twice, pop once (x86_64 text), the spec's example shape. -/
def ex_push_pop : List Inst := [⟨0, "pushq %rbx"⟩, ⟨1, "pushq %rbp"⟩, ⟨2, "popq %rbp"⟩]

/-- A call to an in-range target followed by straight-line code. -/
def ex_call_seq : List Inst := [⟨0, "callq 0x10 <f>"⟩, ⟨2, "nop"⟩, ⟨16, "nop"⟩]

/- Helper lemmas about the map model and the inference loop. -/

lemma mset_self {α : Type} (m : Nat → Option α) (k : Nat) (v : α) :
    mset m k v k = some v := by
  simp [mset]

lemma mset_other {α : Type} (m : Nat → Option α) (k : Nat) (v : α) (x : Nat) (h : x ≠ k) :
    mset m k v x = m x := by
  simp [mset, h]

lemma mset_isSome {α : Type} (m : Nat → Option α) (k : Nat) (v : α) (x : Nat)
    (h : (m x).isSome) : ((mset m k v) x).isSome := by
  unfold mset
  split
  · simp
  · exact h

lemma infer_run_append (lo hi : Nat) (rules : List Rule) (l1 l2 : List Inst) :
    ∀ (off : Int) (res : Nat → Option Int),
      infer_run lo hi rules (l1 ++ l2) off res =
        match infer_run lo hi rules l1 off res with
        | .ok s => infer_run lo hi rules l2 s.1 s.2
        | .error e => .error e := by
  induction l1 with
  | nil => intro off res; rfl
  | cons i rest ih =>
    intro off res
    cases hs : infer_step lo hi rules i off res with
    | ok s =>
      simp only [List.cons_append, infer_run, hs]
      exact ih s.1 s.2
    | error e => simp only [List.cons_append, infer_run, hs]

lemma infer_step_error (lo hi : Nat) (rules : List Rule) (i : Inst) (offset : Int)
    (result : Nat → Option Int) (e : Error)
    (h : infer_step lo hi rules i offset result = .error e) :
    e.address = i.pc ∧ ∃ a b, e.message = inconsistent_message a b := by
  unfold infer_step at h
  cases hm : firstMatch rules i.inst with
  | none => simp only [hm] at h; exact Except.noConfusion h
  | some act =>
    simp only [hm] at h
    cases ht : act.target with
    | none => simp only [ht] at h; exact Except.noConfusion h
    | some t =>
      simp only [ht] at h
      by_cases hr : lo ≤ t ∧ t ≤ hi
      · rw [if_pos hr] at h
        cases hv : mset result i.pc ((result i.pc).getD offset) t with
        | none => simp only [hv] at h; exact Except.noConfusion h
        | some old =>
          simp only [hv] at h
          by_cases he : old = (result i.pc).getD offset + act.delta
          · rw [if_pos he] at h; exact Except.noConfusion h
          · rw [if_neg he] at h
            cases h
            exact ⟨rfl, old, _, rfl⟩
      · rw [if_neg hr] at h; exact Except.noConfusion h

lemma infer_step_ok_persist (lo hi : Nat) (rules : List Rule) (i : Inst) (offset : Int)
    (result : Nat → Option Int) (s : Int × (Nat → Option Int))
    (h : infer_step lo hi rules i offset result = .ok s) (x : Nat)
    (hx : (result x).isSome) : (s.2 x).isSome := by
  unfold infer_step at h
  cases hm : firstMatch rules i.inst with
  | none => simp only [hm] at h; cases h; exact mset_isSome _ _ _ _ hx
  | some act =>
    simp only [hm] at h
    cases ht : act.target with
    | none => simp only [ht] at h; cases h; exact mset_isSome _ _ _ _ hx
    | some t =>
      simp only [ht] at h
      by_cases hr : lo ≤ t ∧ t ≤ hi
      · rw [if_pos hr] at h
        cases hv : mset result i.pc ((result i.pc).getD offset) t with
        | none =>
          simp only [hv] at h
          cases h
          exact mset_isSome _ _ _ _ (mset_isSome _ _ _ _ hx)
        | some old =>
          simp only [hv] at h
          by_cases he : old = (result i.pc).getD offset + act.delta
          · rw [if_pos he] at h
            cases h
            exact mset_isSome _ _ _ _ (mset_isSome _ _ _ _ hx)
          · rw [if_neg he] at h; exact Except.noConfusion h
      · rw [if_neg hr] at h; cases h; exact mset_isSome _ _ _ _ hx

lemma infer_step_ok_sets (lo hi : Nat) (rules : List Rule) (i : Inst) (offset : Int)
    (result : Nat → Option Int) (s : Int × (Nat → Option Int))
    (h : infer_step lo hi rules i offset result = .ok s) : (s.2 i.pc).isSome := by
  have hbase : ((mset result i.pc ((result i.pc).getD offset)) i.pc).isSome := by
    rw [mset_self]; rfl
  unfold infer_step at h
  cases hm : firstMatch rules i.inst with
  | none => simp only [hm] at h; cases h; exact hbase
  | some act =>
    simp only [hm] at h
    cases ht : act.target with
    | none => simp only [ht] at h; cases h; exact hbase
    | some t =>
      simp only [ht] at h
      by_cases hr : lo ≤ t ∧ t ≤ hi
      · rw [if_pos hr] at h
        cases hv : mset result i.pc ((result i.pc).getD offset) t with
        | none => simp only [hv] at h; cases h; exact mset_isSome _ _ _ _ hbase
        | some old =>
          simp only [hv] at h
          by_cases he : old = (result i.pc).getD offset + act.delta
          · rw [if_pos he] at h; cases h; exact mset_isSome _ _ _ _ hbase
          · rw [if_neg he] at h; exact Except.noConfusion h
      · rw [if_neg hr] at h; cases h; exact hbase

lemma infer_run_ok_persist (lo hi : Nat) (rules : List Rule) :
    ∀ (insts : List Inst) (off : Int) (res : Nat → Option Int) (o : Int)
      (r : Nat → Option Int), infer_run lo hi rules insts off res = .ok (o, r) →
      ∀ x, (res x).isSome → (r x).isSome := by
  intro insts
  induction insts with
  | nil =>
    intro off res o r h x hx
    simp only [infer_run] at h
    cases h
    exact hx
  | cons i rest ih =>
    intro off res o r h x hx
    simp only [infer_run] at h
    cases hs : infer_step lo hi rules i off res with
    | ok s =>
      rw [hs] at h
      exact ih s.1 s.2 o r h x (infer_step_ok_persist _ _ _ _ _ _ _ hs x hx)
    | error e => rw [hs] at h; exact Except.noConfusion h

lemma infer_run_ok_total (lo hi : Nat) (rules : List Rule) :
    ∀ (insts : List Inst) (off : Int) (res : Nat → Option Int) (o : Int)
      (r : Nat → Option Int), infer_run lo hi rules insts off res = .ok (o, r) →
      ∀ i ∈ insts, (r i.pc).isSome := by
  intro insts
  induction insts with
  | nil => intro off res o r _ i hi2; exact absurd hi2 (List.not_mem_nil i)
  | cons j rest ih =>
    intro off res o r h i hi2
    simp only [infer_run] at h
    cases hs : infer_step lo hi rules j off res with
    | ok s =>
      rw [hs] at h
      rcases List.mem_cons.mp hi2 with he | ht
      · subst he
        exact infer_run_ok_persist lo hi rules rest s.1 s.2 o r h i.pc
          (infer_step_ok_sets _ _ _ _ _ _ _ hs)
      · exact ih s.1 s.2 o r h i ht
    | error e => rw [hs] at h; exact Except.noConfusion h

lemma infer_run_error_mem (lo hi : Nat) (rules : List Rule) :
    ∀ (insts : List Inst) (off : Int) (res : Nat → Option Int) (e : Error),
      infer_run lo hi rules insts off res = .error e →
      e.address ∈ insts.map Inst.pc ∧ ∃ a b, e.message = inconsistent_message a b := by
  intro insts
  induction insts with
  | nil => intro off res e h; simp only [infer_run] at h; exact Except.noConfusion h
  | cons i rest ih =>
    intro off res e h
    simp only [infer_run] at h
    cases hs : infer_step lo hi rules i off res with
    | ok s =>
      rw [hs] at h
      obtain ⟨h1, h2⟩ := ih s.1 s.2 e h
      exact ⟨by simp [h1], h2⟩
    | error e2 =>
      rw [hs] at h
      cases h
      obtain ⟨h1, h2⟩ := infer_step_error _ _ _ _ _ _ _ hs
      exact ⟨by simp [h1], h2⟩

lemma get_inferred_ok_run (rules : List Rule) (ini : Int) (insts : List Inst)
    (m : Nat → Option Int) (h : get_inferred_cfa_offsets rules ini insts = .ok m) :
    ∃ o, infer_run (((insts.head?).map Inst.pc).getD 0) (((insts.getLast?).map Inst.pc).getD 0)
      rules insts ini (fun _ => none) = .ok (o, m) := by
  unfold get_inferred_cfa_offsets at h
  cases hr : infer_run (((insts.head?).map Inst.pc).getD 0)
      (((insts.getLast?).map Inst.pc).getD 0) rules insts ini (fun _ => none) with
  | ok s =>
    obtain ⟨o, r⟩ := s
    rw [hr] at h
    simp only [Except.map] at h
    cases h
    exact ⟨o, rfl⟩
  | error e => rw [hr] at h; exact Except.noConfusion h

lemma get_inferred_error_run (rules : List Rule) (ini : Int) (insts : List Inst)
    (e : Error) (h : get_inferred_cfa_offsets rules ini insts = .error e) :
    infer_run (((insts.head?).map Inst.pc).getD 0) (((insts.getLast?).map Inst.pc).getD 0)
      rules insts ini (fun _ => none) = .error e := by
  unfold get_inferred_cfa_offsets at h
  cases hr : infer_run (((insts.head?).map Inst.pc).getD 0)
      (((insts.getLast?).map Inst.pc).getD 0) rules insts ini (fun _ => none) with
  | ok s => rw [hr] at h; exact Except.noConfusion h
  | error e2 =>
    rw [hr] at h
    simp only [Except.map] at h
    cases h
    rfl

lemma get_dwarf_ok_run (ini : Int) (insts : List Inst) (cfa : List (Nat × Option Int))
    (d : Nat → Option (Option Int)) (h : get_dwarf_cfa_offsets ini insts cfa = .ok d) :
    d = dwarf_run insts cfa (some ini) (fun _ => none) := by
  unfold get_dwarf_cfa_offsets at h
  split at h
  · exact Except.noConfusion h
  · cases h; rfl

lemma get_dwarf_error_addr (ini : Int) (insts : List Inst) (cfa : List (Nat × Option Int))
    (e : Error) (h : get_dwarf_cfa_offsets ini insts cfa = .error e) :
    e = ⟨(((insts.head?).map Inst.pc).getD 0), no_trivial_message⟩ := by
  unfold get_dwarf_cfa_offsets at h
  split at h
  · cases h; rfl
  · exact Except.noConfusion h

lemma dwarf_run_persist :
    ∀ (insts : List Inst) (cfa : List (Nat × Option Int)) (off : Option Int)
      (res : Nat → Option (Option Int)) (x : Nat), (res x).isSome →
      ((dwarf_run insts cfa off res) x).isSome := by
  intro insts
  induction insts with
  | nil => intro cfa off res x hx; exact hx
  | cons i rest ih =>
    intro cfa off res x hx
    simp only [dwarf_run]
    exact ih _ _ _ x (mset_isSome _ _ _ _ hx)

lemma dwarf_run_total :
    ∀ (insts : List Inst) (cfa : List (Nat × Option Int)) (off : Option Int)
      (res : Nat → Option (Option Int)) (i : Inst), i ∈ insts →
      ((dwarf_run insts cfa off res) i.pc).isSome := by
  intro insts
  induction insts with
  | nil => intro cfa off res i hi2; exact absurd hi2 (List.not_mem_nil i)
  | cons j rest ih =>
    intro cfa off res i hi2
    simp only [dwarf_run]
    rcases List.mem_cons.mp hi2 with he | ht
    · subst he
      refine dwarf_run_persist rest _ _ _ i.pc ?_
      rw [mset_self]
      rfl
    · exact ih _ _ _ i ht

lemma inconsistent_ne_mismatch (a b : Int) :
    inconsistent_message a b ≠ mismatch_message := by
  intro h
  have h3 : (inconsistent_message a b).data.head? = some 'I' := rfl
  have h4 : mismatch_message.data.head? = some 'D' := rfl
  rw [h, h4] at h3
  exact absurd (Option.some.inj h3) (by decide)

lemma find_first {α : Type} (p : α → Bool) (l1 l2 : List α) (a : α)
    (h1 : ∀ x ∈ l1, p x = false) (h2 : p a = true) :
    (l1 ++ a :: l2).find? p = some a := by
  induction l1 with
  | nil => simpa [List.find?_cons] using List.find?_cons_of_pos l2 h2
  | cons b t ih =>
    rw [List.cons_append, List.find?_cons_of_neg _ (by simp [h1 b (by simp)])]
    exact ih (fun x hx => h1 x (by simp [hx]))

lemma infer_run_no_branch (lo hi : Nat) (rules : List Rule) :
    ∀ (insts : List Inst) (off : Int) (res : Nat → Option Int),
      (∀ i ∈ insts, no_branch rules i = true) →
      (insts.map Inst.pc).Nodup →
      (∀ i ∈ insts, res i.pc = none) →
      ∃ resF,
        infer_run lo hi rules insts off res = .ok (off + line_deltas rules insts, resF) ∧
        (∀ k, (hk : k < insts.length) →
          resF (insts.get ⟨k, hk⟩).pc = some (off + line_deltas rules (insts.take k))) ∧
        (∀ x, x ∉ insts.map Inst.pc → resF x = res x) := by
  intro insts
  induction insts with
  | nil =>
    intro off res _ _ _
    refine ⟨res, ?_, ?_, ?_⟩
    · simp [infer_run, line_deltas]
    · intro k hk; exact absurd hk (by simp)
    · intro x _; rfl
  | cons i rest ih =>
    intro off res hb hnd hres
    rw [List.map_cons, List.nodup_cons] at hnd
    have hresi : res i.pc = none := hres i (List.mem_cons_self i rest)
    have hb2 : ∀ act, firstMatch rules i.inst = some act → act.target = none := by
      intro act hm
      have hb1 := hb i (List.mem_cons_self i rest)
      unfold no_branch at hb1
      rw [hm] at hb1
      exact Option.isNone_iff_eq_none.mp hb1
    have hstep : infer_step lo hi rules i off res =
        .ok (off + matched_delta rules i, mset res i.pc off) := by
      unfold infer_step
      cases hm : firstMatch rules i.inst with
      | none => simp [hm, hresi, matched_delta]
      | some act => simp [hm, hb2 act hm, hresi, matched_delta]
    have hres' : ∀ j ∈ rest, (mset res i.pc off) j.pc = none := by
      intro j hj
      have hne : j.pc ≠ i.pc := by
        intro he
        exact hnd.1 (he ▸ List.mem_map_of_mem Inst.pc hj)
      rw [mset_other _ _ _ _ hne]
      exact hres j (List.mem_cons_of_mem i hj)
    obtain ⟨resF, hrun, hget, hout⟩ :=
      ih (off + matched_delta rules i) (mset res i.pc off)
        (fun j hj => hb j (List.mem_cons_of_mem i hj)) hnd.2 hres'
    refine ⟨resF, ?_, ?_, ?_⟩
    · simp only [infer_run, hstep]
      rw [hrun]
      have hsum : off + matched_delta rules i + line_deltas rules rest =
          off + line_deltas rules (i :: rest) := by
        simp only [line_deltas, List.map_cons, List.sum_cons]
        ring
      rw [hsum]
    · intro k hk
      cases k with
      | zero =>
        have h0 : resF i.pc = (mset res i.pc off) i.pc := hout i.pc hnd.1
        show resF i.pc = some (off + line_deltas rules (List.take 0 (i :: rest)))
        rw [h0, mset_self]
        simp [line_deltas]
      | succ k =>
        have hk' : k < rest.length := by simpa using hk
        show resF (rest.get ⟨k, hk'⟩).pc =
          some (off + line_deltas rules (List.take (k + 1) (i :: rest)))
        rw [hget k hk']
        have hsum : off + matched_delta rules i + line_deltas rules (rest.take k) =
            off + line_deltas rules ((i :: rest).take (k + 1)) := by
          simp only [line_deltas, List.take_succ_cons, List.map_cons, List.sum_cons]
          ring
        rw [hsum]
    · intro x hx
      rw [List.map_cons, List.mem_cons, not_or] at hx
      rw [hout x hx.2, mset_other _ _ _ _ hx.1]

lemma infer_run_append_step (lo hi : Nat) (rules : List Rule) (l1 l2 : List Inst)
    (i : Inst) (ini offv : Int) (res : Nat → Option Int)
    (outcome : Except Error (Int × (Nat → Option Int)))
    (hrun : infer_run lo hi rules l1 ini (fun _ => none) = .ok (offv, res))
    (hs : infer_step lo hi rules i offv res = outcome) :
    infer_run lo hi rules (l1 ++ i :: l2) ini (fun _ => none) =
      match outcome with
      | .ok s => infer_run lo hi rules l2 s.1 s.2
      | .error e => .error e := by
  rw [infer_run_append lo hi rules l1 (i :: l2), hrun]
  show infer_run lo hi rules (i :: l2) offv res = _
  cases outcome with
  | ok s => simp only [infer_run, hs]
  | error e => simp only [infer_run, hs]

/-- Claim C1 (amended): over any straight-line instruction sequence (no
matched effect names a branch target, distinct instruction PCs), the
inferred resolver records at the k-th instruction the initial offset plus
the sum, in program order, of the matched offset deltas of the
instructions strictly before it; in particular the value recorded at the
final instruction excludes that instruction's own delta. -/
theorem c1_inferred_offsets_prefix_sums (rules : List Rule) (ini : Int)
    (insts : List Inst) (k : Nat) (hk : k < insts.length)
    (hb : ∀ i ∈ insts, no_branch rules i = true)
    (hnd : (insts.map Inst.pc).Nodup) :
    get_inferred_at rules ini insts ((insts.get ⟨k, hk⟩).pc) =
      .ok (some (ini + line_deltas rules (insts.take k))) := by
  obtain ⟨resF, hrun, hget, -⟩ :=
    infer_run_no_branch (((insts.head?).map Inst.pc).getD 0)
      (((insts.getLast?).map Inst.pc).getD 0) rules insts ini (fun _ => none) hb hnd
      (fun i _ => rfl)
  unfold get_inferred_at get_inferred_cfa_offsets
  rw [hrun]
  simp only [Except.map]
  rw [hget k hk]

/-- Claim C1 counterexample: with push=+8/pop=-8 rules and initial offset
0, the sequence push, push, pop records 16 at the final instruction — the
initial offset plus the deltas of the two earlier instructions — not the
initial offset plus the sum of all deltas (which is 8). -/
theorem c1_counterexample :
    ¬ get_inferred_at (x86_semantics 8) 0 ex_push_pop 2 =
        .ok (some ((0 : Int) + line_deltas (x86_semantics 8) ex_push_pop)) := by
  intro h
  have h16 : get_inferred_at (x86_semantics 8) 0 ex_push_pop 2 = .ok (some 16) := rfl
  rw [h16] at h
  have h8 : (0 : Int) + line_deltas (x86_semantics 8) ex_push_pop = 8 := by decide
  rw [h8] at h
  injection h with h1
  injection h1 with h2
  exact absurd h2 (by decide)

/-- Witness for C1: the amended theorem evaluated on the push/push/pop
example at the final instruction (index 2) gives 0 + (8 + 8) = 16. -/
theorem c1_witness :
    get_inferred_at (x86_semantics 8) 0 ex_push_pop 2 = .ok (some 16) := by
  have h := c1_inferred_offsets_prefix_sums (x86_semantics 8) 0 ex_push_pop 2
    (by decide) (by decide) (by decide)
  exact h

/-- Claim C2: during inference, when an instruction's first-matching
effect names an in-range branch target `t` and the offset map (after the
instruction's own `setdefault`) already records `v` at `t`: if `v`
equals the propagated offset, the run continues with no error for this
instruction; if it differs, the run stops with an `Error` whose
`address` is the PC of this later branching instruction. -/
theorem c2_branch_target_consistency (lo hi : Nat) (rules : List Rule)
    (l1 l2 : List Inst) (i : Inst) (ini offv : Int) (res : Nat → Option Int)
    (act : RuleAction) (t : Nat)
    (hrun : infer_run lo hi rules l1 ini (fun _ => none) = .ok (offv, res))
    (hfm : firstMatch rules i.inst = some act)
    (ht : act.target = some t)
    (hlo : lo ≤ t) (hhi : t ≤ hi) :
    (∀ v, mset res i.pc ((res i.pc).getD offv) t = some v →
        v ≠ (res i.pc).getD offv + act.delta →
        infer_run lo hi rules (l1 ++ i :: l2) ini (fun _ => none) =
          .error ⟨i.pc, inconsistent_message v ((res i.pc).getD offv + act.delta)⟩) ∧
    (mset res i.pc ((res i.pc).getD offv) t = some ((res i.pc).getD offv + act.delta) →
        infer_run lo hi rules (l1 ++ i :: l2) ini (fun _ => none) =
          infer_run lo hi rules l2 ((res i.pc).getD offv)
            (mset (mset res i.pc ((res i.pc).getD offv)) t
              ((res i.pc).getD offv + act.delta))) := by
  constructor
  · intro v hv hne
    have hs : infer_step lo hi rules i offv res =
        .error ⟨i.pc, inconsistent_message v ((res i.pc).getD offv + act.delta)⟩ := by
      unfold infer_step
      simp [hfm, ht, hv, hlo, hhi, hne]
    exact infer_run_append_step lo hi rules l1 l2 i ini offv res _ hrun hs
  · intro hv
    have hs : infer_step lo hi rules i offv res =
        .ok ((res i.pc).getD offv, mset (mset res i.pc ((res i.pc).getD offv)) t
          ((res i.pc).getD offv + act.delta)) := by
      unfold infer_step
      simp [hfm, ht, hv, hlo, hhi]
    exact infer_run_append_step lo hi rules l1 l2 i ini offv res _ hrun hs

/-- Witness for C2: a `call` whose target PC is its own (already
`setdefault`-recorded) PC propagates offset 0 + 8 against the recorded 0,
so the run stops with the error at the call's PC. -/
theorem c2_witness :
    infer_run 0 100 (x86_semantics 8) [⟨4, "callq 0x4 <f>"⟩] 0 (fun _ => none) =
      .error ⟨4, inconsistent_message 0 8⟩ := by
  have h := (c2_branch_target_consistency 0 100 (x86_semantics 8) [] []
    ⟨4, "callq 0x4 <f>"⟩ 0 0 (fun _ => none) ⟨8, some 4⟩ 4 rfl rfl rfl
    (by decide) (by decide)).1 0 rfl (by decide)
  exact h

/-- Claim C3 counterexample: for the x86_64 `call` at PC 0 of
`ex_call_seq` (target 0x10 = 16, within the range [0, 16]) the running
offset carried to the next instruction (PC 2) stays at the initial 8 —
the call's +8 delta is not applied to it, only to the value propagated
to the target. -/
theorem c3_counterexample :
    get_inferred_at (x86_semantics 8) 8 ex_call_seq 2 = .ok (some 8) ∧
    ¬ get_inferred_at (x86_semantics 8) 8 ex_call_seq 2 =
        .ok (some ((8 : Int) + 8)) := by
  constructor
  · rfl
  · intro h
    have h8 : get_inferred_at (x86_semantics 8) 8 ex_call_seq 2 = .ok (some 8) := rfl
    rw [h8] at h
    injection h with h1
    injection h1 with h2
    exact absurd h2 (by decide)

/-- Claim C3 (amended): when an instruction's first-matching effect names
an in-range branch target and no conflicting value is already recorded
there, the run continues with the running offset unchanged (the effect's
delta is not applied to the offset carried to the next instruction), and
the map at the target PC holds the pre-instruction offset plus the
effect's delta (so a call's implicit push is included in the propagated
value only). -/
theorem c3_branch_effect_propagation (lo hi : Nat) (rules : List Rule)
    (l1 l2 : List Inst) (i : Inst) (ini offv : Int) (res : Nat → Option Int)
    (act : RuleAction) (t : Nat)
    (hrun : infer_run lo hi rules l1 ini (fun _ => none) = .ok (offv, res))
    (hfm : firstMatch rules i.inst = some act)
    (ht : act.target = some t)
    (hlo : lo ≤ t) (hhi : t ≤ hi)
    (hok : mset res i.pc ((res i.pc).getD offv) t = none ∨
      mset res i.pc ((res i.pc).getD offv) t =
        some ((res i.pc).getD offv + act.delta)) :
    infer_run lo hi rules (l1 ++ i :: l2) ini (fun _ => none) =
      infer_run lo hi rules l2 ((res i.pc).getD offv)
        (mset (mset res i.pc ((res i.pc).getD offv)) t
          ((res i.pc).getD offv + act.delta)) ∧
    (mset (mset res i.pc ((res i.pc).getD offv)) t
        ((res i.pc).getD offv + act.delta)) t =
      some ((res i.pc).getD offv + act.delta) := by
  refine ⟨?_, mset_self _ _ _⟩
  have hs : infer_step lo hi rules i offv res =
      .ok ((res i.pc).getD offv, mset (mset res i.pc ((res i.pc).getD offv)) t
        ((res i.pc).getD offv + act.delta)) := by
    unfold infer_step
    rcases hok with hv | hv
    · simp [hfm, ht, hv, hlo, hhi]
    · simp [hfm, ht, hv, hlo, hhi]
  exact infer_run_append_step lo hi rules l1 l2 i ini offv res _ hrun hs

/-- Witness for C3: a self-targeting `jmp` at PC 4 (delta 0) continues
with running offset 0 and records 0 at the target. -/
theorem c3_witness :
    infer_run 0 100 (x86_semantics 8) [⟨4, "jmp 0x4 <f>"⟩] 0 (fun _ => none) =
      .ok (0, mset (mset (fun _ => none) 4 0) 4 0) := by
  have h := (c3_branch_effect_propagation 0 100 (x86_semantics 8) [] []
    ⟨4, "jmp 0x4 <f>"⟩ 0 0 (fun _ => none) ⟨0, some 4⟩ 4 rfl rfl rfl
    (by decide) (by decide) (Or.inr rfl)).1
  exact h

/-- Claim C4: if every decoded CFA rule of the FDE is `None` — including
the case where no rule decoded at all — the DWARF resolver raises an
`Error` whose address is the first instruction's PC, instead of
returning an offset map. -/
theorem c4_no_trivial_cfa_error (ini : Int) (i0 : Inst) (rest : List Inst)
    (cfa : List (Nat × Option Int)) (hall : ∀ r ∈ cfa, r.2 = none) :
    get_dwarf_cfa_offsets ini (i0 :: rest) cfa =
      .error ⟨i0.pc, no_trivial_message⟩ := by
  unfold get_dwarf_cfa_offsets
  rw [if_pos]
  · rfl
  · rw [List.all_eq_true]
    intro r hr
    rw [hall r hr]
    rfl

/-- Witness for C4: an FDE with zero decoded rules fails at the first
instruction's PC (5). -/
theorem c4_witness :
    get_dwarf_cfa_offsets 8 [⟨5, "nop"⟩] [] = .error ⟨5, no_trivial_message⟩ :=
  c4_no_trivial_cfa_error 8 ⟨5, "nop"⟩ [] [] (by simp)

/-- Claim C5: the comparator never raises its mismatch error at a PC
whose declared offset is `None` (or absent from the DWARF map) or which
is absent from the source-line map, regardless of the inferred offset. -/
theorem c5_none_or_unattributed_never_mismatch (rules : List Rule) (ini : Int)
    (srcs : Finset Nat) (insts : List Inst) (cfa : List (Nat × Option Int))
    (d : Nat → Option (Option Int)) (pc : Nat)
    (hd : get_dwarf_cfa_offsets ini insts cfa = .ok d)
    (h : (d pc).getD none = none ∨ pc ∉ srcs) :
    check_fde rules ini srcs insts cfa ≠ .error ⟨pc, mismatch_message⟩ := by
  intro hc
  unfold check_fde at hc
  simp only [hd] at hc
  cases hm : get_inferred_cfa_offsets rules ini insts with
  | error e =>
    simp only [hm] at hc
    injection hc with hc2
    obtain ⟨-, a, b, hmsg⟩ :=
      infer_run_error_mem _ _ _ _ _ _ _ (get_inferred_error_run rules ini insts e hm)
    rw [hc2] at hmsg
    exact inconsistent_ne_mismatch a b hmsg.symm
  | ok m =>
    simp only [hm] at hc
    cases hf : insts.find? (fun i => is_mismatch d m srcs i.pc) with
    | none => simp only [hf] at hc; exact Except.noConfusion hc
    | some j =>
      simp only [hf] at hc
      injection hc with hc2
      have hjpc : j.pc = pc := congrArg Error.address hc2
      have hj := List.find?_some hf
      unfold is_mismatch at hj
      rw [hjpc] at hj
      simp only [Bool.and_eq_true, decide_eq_true_eq] at hj
      rcases h with h1 | h2
      · rw [h1] at hj
        simp at hj
      · exact h2 hj.2

/-- Witness for C5: an FDE whose declared and inferred offsets agree
raises nothing, in particular no mismatch error at PC 0, which here is
not source-attributed. -/
theorem c5_witness :
    check_fde [] 8 ∅ [⟨0, "nop"⟩] [(0, some 8)] ≠ .error ⟨0, mismatch_message⟩ :=
  c5_none_or_unattributed_never_mismatch [] 8 ∅ [⟨0, "nop"⟩] [(0, some 8)]
    (dwarf_run [⟨0, "nop"⟩] [(0, some 8)] (some 8) (fun _ => none)) 0 rfl
    (Or.inr (by decide))

/-- Claim C6: when both offset maps resolve and a genuine mismatch
exists, the comparator raises exactly one error for the FDE, placed at
the first genuinely mismatching instruction in program order; later
mismatching PCs are not separately reported. -/
theorem c6_first_mismatch_reported (rules : List Rule) (ini : Int) (srcs : Finset Nat)
    (l1 l2 : List Inst) (i : Inst) (cfa : List (Nat × Option Int))
    (d : Nat → Option (Option Int)) (m : Nat → Option Int)
    (hd : get_dwarf_cfa_offsets ini (l1 ++ i :: l2) cfa = .ok d)
    (hm : get_inferred_cfa_offsets rules ini (l1 ++ i :: l2) = .ok m)
    (h1 : ∀ j ∈ l1, is_mismatch d m srcs j.pc = false)
    (h2 : is_mismatch d m srcs i.pc = true) :
    check_fde rules ini srcs (l1 ++ i :: l2) cfa = .error ⟨i.pc, mismatch_message⟩ := by
  unfold check_fde
  simp only [hd, hm]
  rw [find_first (fun j => is_mismatch d m srcs j.pc) l1 l2 i h1 h2]

/-- Witness for C6: declared offset 0 against inferred 8 at both PCs of
a two-instruction FDE; the single raised error is at the first PC (0). -/
theorem c6_witness :
    check_fde (x86_semantics 8) 8 {0, 1} [⟨0, "nop"⟩, ⟨1, "nop"⟩] [(0, some 0)] =
      .error ⟨0, mismatch_message⟩ := by
  have h := c6_first_mismatch_reported (x86_semantics 8) 8 {0, 1} [] [⟨1, "nop"⟩]
    ⟨0, "nop"⟩ [(0, some 0)]
    (dwarf_run [⟨0, "nop"⟩, ⟨1, "nop"⟩] [(0, some 0)] (some 8) (fun _ => none))
    (mset (mset (fun _ => none) 0 8) 1 8)
    rfl rfl (by simp) (by decide)
  exact h

/-- Claim C10: whenever the two resolvers return maps for an instruction
sequence, both maps hold an entry at every instruction PC (the DWARF
loop writes each PC unconditionally, the inference loop `setdefault`s
it), so the comparator's lookups never fail. -/
theorem c10_offset_maps_total (rules : List Rule) (ini : Int) (insts : List Inst)
    (cfa : List (Nat × Option Int)) (d : Nat → Option (Option Int))
    (m : Nat → Option Int) (i : Inst)
    (hd : get_dwarf_cfa_offsets ini insts cfa = .ok d)
    (hm : get_inferred_cfa_offsets rules ini insts = .ok m)
    (hi : i ∈ insts) :
    (d i.pc).isSome ∧ (m i.pc).isSome := by
  constructor
  · rw [get_dwarf_ok_run ini insts cfa d hd]
    exact dwarf_run_total insts cfa (some ini) (fun _ => none) i hi
  · obtain ⟨o, hr⟩ := get_inferred_ok_run rules ini insts m hm
    exact infer_run_ok_total _ _ rules insts ini (fun _ => none) o m hr i hi

/-- Witness for C10 on a concrete one-instruction FDE. -/
theorem c10_witness :
    ((dwarf_run [⟨7, "nop"⟩] [(0, some 4)] (some 4) (fun _ => none)) 7).isSome ∧
    ((mset (fun _ => none) 7 4) 7).isSome :=
  c10_offset_maps_total [] 4 [⟨7, "nop"⟩] [(0, some 4)]
    (dwarf_run [⟨7, "nop"⟩] [(0, some 4)] (some 4) (fun _ => none))
    (mset (fun _ => none) 7 4) ⟨7, "nop"⟩ rfl rfl (by decide)

lemma main_status_zero_iff : ∀ (fails : List Nat),
    main_status fails = 0 ↔ ∀ f ∈ fails, f = 0 := by
  intro fails
  induction fails with
  | nil => simp [main_status]
  | cons f rest ih =>
    by_cases hf : 0 < f
    · rw [show main_status (f :: rest) = 1 from by simp [main_status, hf]]
      constructor
      · intro h; exact absurd h (by omega)
      · intro h; exact absurd (h f (List.mem_cons_self f rest)) (by omega)
    · have hf0 : f = 0 := by omega
      rw [show main_status (f :: rest) = main_status rest from by simp [main_status, hf]]
      rw [ih]
      constructor
      · intro h g hg
        rcases List.mem_cons.mp hg with he | hm
        · rw [he, hf0]
        · exact h g hm
      · intro h g hg
        exact h g (List.mem_cons_of_mem f hg)

lemma main_first_fail : ∀ (l1 : List Nat) (f : Nat) (l2 : List Nat),
    (∀ g ∈ l1, g = 0) → 0 < f →
    main_status (l1 ++ f :: l2) = 1 ∧
      main_libs_checked (l1 ++ f :: l2) = l1.length + 1 := by
  intro l1
  induction l1 with
  | nil =>
    intro f l2 _ hf
    constructor
    · simp [main_status, hf]
    · simp [main_libs_checked, hf]
  | cons g t ih =>
    intro f l2 hz hf
    have hg : g = 0 := hz g (List.mem_cons_self g t)
    obtain ⟨ha, hb⟩ := ih f l2 (fun x hx => hz x (List.mem_cons_of_mem g hx)) hf
    subst hg
    constructor
    · simpa [main_status] using ha
    · rw [List.cons_append]
      show (if 0 < 0 then 1 else 1 + main_libs_checked (t ++ f :: l2)) = (0 :: t).length + 1
      rw [if_neg (by omega), hb]
      simp
      omega

/-- Claim C7 counterexample: with two failing libraries `[1, 1]`, the
exit status is 1 but only the first library is checked — the second is
skipped, so termination does not wait for every library to be checked. -/
theorem c7_counterexample :
    main_status [1, 1] = 1 ∧ main_libs_checked [1, 1] = 1 ∧
      main_libs_checked [1, 1] ≠ [1, 1].length := by
  refine ⟨rfl, rfl, by decide⟩

/-- Claim C7 (amended): the exit status is 0 iff every library reports
zero errors; otherwise `main` terminates with status 1 immediately after
the first library that reports errors (whose own errors were all printed
by `check_lib` before returning), leaving the later libraries unchecked. -/
theorem c7_exit_behavior (fails : List Nat) :
    (main_status fails = 0 ↔ ∀ f ∈ fails, f = 0) ∧
    (∀ l1 f l2, fails = l1 ++ f :: l2 → (∀ g ∈ l1, g = 0) → 0 < f →
      main_status fails = 1 ∧ main_libs_checked fails = l1.length + 1) := by
  refine ⟨main_status_zero_iff fails, ?_⟩
  intro l1 f l2 hs hz hf
  rw [hs]
  exact main_first_fail l1 f l2 hz hf

/-- Witness for C7: fail counts `[0, 2, 3]` give exit status 1 with
exactly two libraries checked. -/
theorem c7_witness :
    main_status [0, 2, 3] = 1 ∧ main_libs_checked [0, 2, 3] = 2 := by
  have h := (c7_exit_behavior [0, 2, 3]).2 [0] 2 [3] rfl (by decide) (by decide)
  exact h

lemma collect_seen_mono (arch : Arch) (fpc fend : Nat) :
    ∀ (asms : List Asm) (seen : Finset Nat) (acc : List Inst) (name : String),
      seen ⊆ (collect_asms arch fpc fend asms seen acc name).2.1 := by
  intro asms
  induction asms with
  | nil => intro seen acc name; simp [collect_asms]
  | cons a rest ih =>
    intro seen acc name
    unfold collect_asms
    split
    · split
      · exact ih seen acc name
      · split
        · exact Finset.Subset.trans Finset.subset_union_left (ih _ acc name)
        · exact ih seen _ _
    · simp

lemma collect_acc_from (arch : Arch) (fpc fend : Nat) :
    ∀ (asms : List Asm) (seen : Finset Nat) (acc : List Inst) (name : String)
      (i : Inst), i ∈ (collect_asms arch fpc fend asms seen acc name).2.2.1 →
      i ∈ acc ∨ ∃ b, b ∈ asms ∧ is_ignored arch b.name = false ∧ i ∈ b.insts := by
  intro asms
  induction asms with
  | nil =>
    intro seen acc name i hi2
    simp only [collect_asms] at hi2
    exact Or.inl hi2
  | cons a rest ih =>
    intro seen acc name i hi2
    unfold collect_asms at hi2
    split at hi2
    · split at hi2
      · rcases ih _ _ _ i hi2 with h | ⟨b, hb, hbig, hbi⟩
        · exact Or.inl h
        · exact Or.inr ⟨b, List.mem_cons_of_mem a hb, hbig, hbi⟩
      · split at hi2
        · rcases ih _ _ _ i hi2 with h | ⟨b, hb, hbig, hbi⟩
          · exact Or.inl h
          · exact Or.inr ⟨b, List.mem_cons_of_mem a hb, hbig, hbi⟩
        · rcases ih _ _ _ i hi2 with h | ⟨b, hb, hbig, hbi⟩
          · rcases List.mem_append.mp h with h1 | h2
            · exact Or.inl h1
            · rename_i hig
              rw [Bool.not_eq_true] at hig
              exact Or.inr ⟨a, List.mem_cons_self a rest, hig, h2⟩
          · exact Or.inr ⟨b, List.mem_cons_of_mem a hb, hbig, hbi⟩
    · exact Or.inl hi2

lemma collect_ignored_seen (arch : Arch) (fpc fend : Nat) :
    ∀ (asms : List Asm) (seen : Finset Nat) (acc : List Inst) (name : String) (a : Asm),
      a ∈ asms.takeWhile (fun b => decide (b.pc < fend)) →
      fpc ≤ a.pc → is_ignored arch a.name = true →
      pcs_of a.insts ⊆ (collect_asms arch fpc fend asms seen acc name).2.1 := by
  intro asms
  induction asms with
  | nil =>
    intro seen acc name a ha
    simp [List.takeWhile] at ha
  | cons b rest ih =>
    intro seen acc name a ha hpc hig
    by_cases hbe : b.pc < fend
    · rw [List.takeWhile_cons, if_pos (by simpa using hbe)] at ha
      rcases List.mem_cons.mp ha with he | hm
      · subst he
        unfold collect_asms
        rw [if_pos hbe, if_neg (by omega), if_pos hig]
        exact Finset.Subset.trans Finset.subset_union_right
          (collect_seen_mono arch fpc fend rest _ acc name)
      · unfold collect_asms
        rw [if_pos hbe]
        by_cases hbf : b.pc < fpc
        · rw [if_pos hbf]
          exact ih seen acc name a hm hpc hig
        · rw [if_neg hbf]
          by_cases hbig : is_ignored arch b.name = true
          · rw [if_pos hbig]
            exact ih _ acc name a hm hpc hig
          · rw [if_neg hbig]
            exact ih seen _ _ a hm hpc hig
    · rw [List.takeWhile_cons, if_neg (by simpa using hbe)] at ha
      simp at ha

/-- Claim C8: an assembly block popped for an FDE whose symbol name
starts with an `IGNORE` entry covering the current architecture is never
compared — every instruction in the comparison list comes from a
non-ignored block — yet all of the ignored block's instruction PCs are
added to the `seen` coverage set. -/
theorem c8_ignored_blocks (arch : Arch) (fpc fend : Nat) (asms : List Asm)
    (seen : Finset Nat) (acc : List Inst) (name : String) (a : Asm)
    (ha : a ∈ asms.takeWhile (fun b => decide (b.pc < fend)))
    (hpc : fpc ≤ a.pc) (hig : is_ignored arch a.name = true) :
    (∀ p ∈ pcs_of a.insts, p ∈ (collect_asms arch fpc fend asms seen acc name).2.1) ∧
    (∀ i ∈ (collect_asms arch fpc fend asms seen acc name).2.2.1,
      i ∈ acc ∨ ∃ b, b ∈ asms ∧ is_ignored arch b.name = false ∧ i ∈ b.insts) := by
  constructor
  · intro p hp
    exact collect_ignored_seen arch fpc fend asms seen acc name a ha hpc hig hp
  · intro i hi2
    exact collect_acc_from arch fpc fend asms seen acc name i hi2

/-- Witness for C8: the ignored block `nterp_op_return_impl` (x86_64)
has its instruction PC 0 in the resulting seen set. -/
theorem c8_witness :
    (0 : Nat) ∈ (collect_asms .x86_64 0 10
      [⟨0, "nterp_op_return_impl", [⟨0, "nop"⟩]⟩] ∅ [] "").2.1 := by
  have h := (c8_ignored_blocks .x86_64 0 10
    [⟨0, "nterp_op_return_impl", [⟨0, "nop"⟩]⟩] ∅ [] ""
    ⟨0, "nterp_op_return_impl", [⟨0, "nop"⟩]⟩ (by decide) (by decide) (by decide)).1
  exact h 0 (by decide)

lemma check_fde_error_mem (rules : List Rule) (ini : Int) (srcs : Finset Nat)
    (insts : List Inst) (cfa : List (Nat × Option Int)) (e : Error)
    (h : check_fde rules ini srcs insts cfa = .error e) (hne : insts ≠ []) :
    e.address ∈ insts.map Inst.pc := by
  obtain ⟨i0, rest, rfl⟩ : ∃ i0 rest, insts = i0 :: rest := by
    cases insts with
    | nil => exact absurd rfl hne
    | cons i0 rest => exact ⟨i0, rest, rfl⟩
  unfold check_fde at h
  cases hd : get_dwarf_cfa_offsets ini (i0 :: rest) cfa with
  | error e2 =>
    simp only [hd] at h
    injection h with h2
    subst h2
    rw [get_dwarf_error_addr ini (i0 :: rest) cfa e2 hd]
    simp
  | ok d =>
    simp only [hd] at h
    cases hm : get_inferred_cfa_offsets rules ini (i0 :: rest) with
    | error e2 =>
      simp only [hm] at h
      injection h with h2
      subst h2
      exact (infer_run_error_mem _ _ rules _ _ _ e2
        (get_inferred_error_run rules ini _ e2 hm)).1
    | ok m =>
      simp only [hm] at h
      cases hf : (i0 :: rest).find? (fun i => is_mismatch d m srcs i.pc) with
      | none => simp only [hf] at h; exact Except.noConfusion h
      | some j =>
        simp only [hf] at h
        injection h with h2
        subst h2
        exact List.mem_map_of_mem Inst.pc (List.mem_of_find?_eq_some hf)

lemma process_fde_inv (arch : Arch) (rules : List Rule) (srcs : Finset Nat)
    (st : LibState) (fde : Fde)
    (h : ∀ e ∈ st.errs, e.address ∈ st.seen) :
    ∀ e ∈ (process_fde arch rules srcs st fde).errs,
      e.address ∈ (process_fde arch rules srcs st fde).seen := by
  unfold process_fde
  split
  · rcases hc : collect_asms arch fde.pc fde.fend st.asms st.seen [] "" with
      ⟨asms2, seen2, insts2, nm⟩
    simp only [hc]
    have hmono : st.seen ⊆ seen2 := by
      have hsub := collect_seen_mono arch fde.pc fde.fend st.asms st.seen [] ""
      rw [hc] at hsub
      exact hsub
    split
    · intro e he
      exact hmono (h e he)
    · rename_i hne
      cases hcf : check_fde rules (INITIAL_OFFSET arch) srcs insts2 fde.cfa with
      | ok u =>
        intro e he
        exact Finset.mem_union_left _ (hmono (h e he))
      | error e2 =>
        intro e he
        rcases List.mem_append.mp he with h1 | h2
        · exact Finset.mem_union_left _ (hmono (h e h1))
        · have he2 : e = e2 := by simpa using h2
          subst he2
          apply Finset.mem_union_right
          have hmem := check_fde_error_mem rules (INITIAL_OFFSET arch) srcs insts2
            fde.cfa e hcf hne
          unfold pcs_of
          exact List.mem_toFinset.mpr hmem
  · exact h

lemma check_lib_fold_inv (arch : Arch) (rules : List Rule) (srcs : Finset Nat) :
    ∀ (fdes : List Fde) (st : LibState), (∀ e ∈ st.errs, e.address ∈ st.seen) →
      ∀ e ∈ (fdes.foldl (process_fde arch rules srcs) st).errs,
        e.address ∈ (fdes.foldl (process_fde arch rules srcs) st).seen := by
  intro fdes
  induction fdes with
  | nil => intro st h; simpa using h
  | cons f t ih =>
    intro st h
    simp only [List.foldl_cons]
    exact ih _ (process_fde_inv arch rules srcs st f h)

/-- Claim C9: `check_lib` returns the FDE error count plus exactly one
coverage error per source PC missing from `seen`; every FDE error's
address is itself in `seen` (a checked FDE's PCs are recorded even when
it raised), so no PC produces both a mismatch error and a coverage
error, and every source PC is either seen or counted exactly once. -/
theorem c9_coverage_accounting (arch : Arch) (rules : List Rule) (fdes : List Fde)
    (asms : List Asm) (srcs : Finset Nat) :
    check_lib arch rules fdes asms srcs =
      (check_lib_state arch rules fdes asms srcs).errs.length +
        (srcs \ (check_lib_state arch rules fdes asms srcs).seen).card ∧
    (∀ e ∈ (check_lib_state arch rules fdes asms srcs).errs,
      e.address ∈ (check_lib_state arch rules fdes asms srcs).seen ∧
        e.address ∉ srcs \ (check_lib_state arch rules fdes asms srcs).seen) ∧
    (∀ pc ∈ srcs, pc ∈ (check_lib_state arch rules fdes asms srcs).seen ↔
      pc ∉ srcs \ (check_lib_state arch rules fdes asms srcs).seen) := by
  refine ⟨rfl, ?_, ?_⟩
  · intro e he
    have h1 : e.address ∈ (check_lib_state arch rules fdes asms srcs).seen :=
      check_lib_fold_inv arch rules srcs fdes ⟨asms, ∅, []⟩ (by simp) e he
    exact ⟨h1, by simp [Finset.mem_sdiff, h1]⟩
  · intro pc hpc
    simp [Finset.mem_sdiff, hpc]

/-- Witness for C9: one FDE raising its mismatch error at PC 0; PC 0 is
nevertheless in `seen` and therefore not among the coverage errors. -/
theorem c9_witness :
    (0 : Nat) ∈ (check_lib_state .x86_64 [] [⟨0, 2, [(0, some 0)]⟩]
        [⟨0, "fn", [⟨0, "nop"⟩, ⟨1, "nop"⟩]⟩] {0, 1, 50}).seen ∧
    (0 : Nat) ∉ ({0, 1, 50} : Finset Nat) \
      (check_lib_state .x86_64 [] [⟨0, 2, [(0, some 0)]⟩]
        [⟨0, "fn", [⟨0, "nop"⟩, ⟨1, "nop"⟩]⟩] {0, 1, 50}).seen := by
  exact (c9_coverage_accounting .x86_64 [] [⟨0, 2, [(0, some 0)]⟩]
    [⟨0, "fn", [⟨0, "nop"⟩, ⟨1, "nop"⟩]⟩] {0, 1, 50}).2.1
    ⟨0, mismatch_message⟩ (by decide)
